import Mathlib

/-!
Verification of the metrics/loss bookkeeping subsystem of the Nervus
repository (`src/models/loss.py`, `src/lib/metrics.py`) against its
natural-language specification.

Scalar losses, scores and metric values are modelled by `ℚ` (the Python
code computes with floats; all the algebraic facts proved here are exact
and hold for any linearly ordered field, so `ℚ` keeps every definition
executable).  Python dictionaries keyed by label-name strings are
modelled as total functions `String → _`; the code only ever reads the
keys it has written (`internal_label_list ++ ["total"]`), so values at
other strings are irrelevant junk.  A Python method that can raise an
exception on the modelled path (indexing `[-1]` into an empty list,
comparing against a `None` best loss, dividing by zero) is modelled as
an `Option`-returning function, `none` standing for the raised
exception.
-/

/-- Phase of one epoch, the `phase` string argument (`'train'` / `'val'`)
of `loss.py`. -/
inductive Phase where
  | train : Phase
  | val : Phase
deriving DecidableEq

/-- State of `class EpochLoss` (`src/models/loss.py` lines 19-25): two
per-phase lists of epoch losses, the best validation loss and its
1-based epoch, and the improved-this-epoch flag.  `best_val_loss` and
`best_epoch` start as Python `None`, modelled by `Option`. -/
structure EpochLoss where
  train : List ℚ
  val : List ℚ
  best_val_loss : Option ℚ
  best_epoch : Option ℕ
  update_flag : Bool
deriving DecidableEq

/-- Dataclass defaults of `EpochLoss`: empty lists, `None` bests, flag
`False`. -/
def initEpochLoss : EpochLoss :=
  { train := [], val := [], best_val_loss := none, best_epoch := none, update_flag := false }

/-- Helper reading the list stored under a phase (`getattr(self, phase)`). -/
def EpochLoss.phaseList (e : EpochLoss) : Phase → List ℚ
  | Phase.train => e.train
  | Phase.val => e.val

/-- Method `EpochLoss.append_epoch_loss` (loss.py lines 27-29): append the new
epoch loss to the list stored under `phase`. -/
def append_epoch_loss (e : EpochLoss) (phase : Phase) (new_epoch_loss : ℚ) : EpochLoss :=
  match phase with
  | Phase.train => { e with train := e.train ++ [new_epoch_loss] }
  | Phase.val => { e with val := e.val ++ [new_epoch_loss] }

/-- Method `EpochLoss.get_latest_loss` (loss.py lines 35-37) reads
`getattr(self, phase)[-1]`; on an empty list Python raises `IndexError`,
modelled by `none`. -/
def get_latest_loss (e : EpochLoss) (phase : Phase) : Option ℚ :=
  (e.phaseList phase).getLast?

/-- Method `EpochLoss.update_best_val_loss_epoch` (loss.py lines 60-73).
For `epoch == 0` it records the latest val loss as best and sets
`best_epoch = epoch + 1`, leaving the flag untouched; otherwise it
compares the latest val loss to the stored best with a strict `<`,
updating best value/epoch and raising the flag on improvement, lowering
the flag otherwise.  `none` models the exceptions Python would raise
when the val list is empty or (for `epoch > 0`) when `best_val_loss` is
still `None`. -/
def update_best_val_loss_epoch (e : EpochLoss) (epoch : ℕ) : Option EpochLoss :=
  if epoch = 0 then
    match get_latest_loss e Phase.val with
    | none => none
    | some v =>
        some { e with best_val_loss := some v, best_epoch := some (epoch + 1) }
  else
    match get_latest_loss e Phase.val, e.best_val_loss with
    | some latest, some best =>
        if latest < best then
          some { e with best_val_loss := some latest, best_epoch := some (epoch + 1),
                        update_flag := true }
        else
          some { e with update_flag := false }
    | _, _ => none

/-- Training-loop driver used by the spec's `updateBest` scenarios: for
each successive validation loss, append it under `'val'` and call
`update_best_val_loss_epoch` with the current epoch number, starting
from `epoch`. -/
def runValFrom (e : EpochLoss) (epoch : ℕ) : List ℚ → Option EpochLoss
  | [] => some e
  | v :: rest =>
      match update_best_val_loss_epoch (append_epoch_loss e Phase.val v) epoch with
      | none => none
      | some e' => runValFrom e' (epoch + 1) rest

/-- State of `class LossRegistory` (loss.py lines 76-110): the internal
label list and the three per-label tables.  `batch_loss` values start as
`None` (set later by `cal_batch_loss`), `running_loss` values start at
`0.0`, `epoch_loss` holds one `EpochLoss` per internal label plus
`'total'`. -/
structure LossRegistory where
  internal_label_list : List String
  batch_loss : String → Option ℚ
  running_loss : String → ℚ
  epoch_loss : String → EpochLoss

/-- Constructor `LossRegistory.__init__` (loss.py lines 84-92) with the
three `_init_*` helpers (lines 94-110). -/
def initLossRegistory (labels : List String) : LossRegistory :=
  { internal_label_list := labels
    batch_loss := fun _ => none
    running_loss := fun _ => 0
    epoch_loss := fun _ => initEpochLoss }

/-- Loop body of `LossRegistory.cal_running_loss` (loss.py lines
117-121): for each internal label, `_running_loss = running_loss[label]
+ batch_loss[label].item() * batch_size`, stored back under the label,
and then `running_loss['total'] += _running_loss` — note that it is the
updated cumulative per-label value, not the per-batch increment, that is
added to `'total'`.  `none` models the `AttributeError` Python raises
when `batch_loss[label]` is still `None`. -/
def cal_running_loss_aux (batch_size : ℚ) (bl : String → Option ℚ) :
    List String → (String → ℚ) → Option (String → ℚ)
  | [], rl => some rl
  | l :: rest, rl =>
      match bl l with
      | none => none
      | some b =>
          let r := rl l + b * batch_size
          let rl1 : String → ℚ := fun s => if s = l then r else rl s
          let rl2 : String → ℚ := fun s => if s = "total" then rl1 ("total") + r else rl1 s
          cal_running_loss_aux batch_size bl rest rl2

/-- Method `LossRegistory.cal_running_loss` (loss.py lines 117-121). -/
def cal_running_loss (st : LossRegistory) (batch_size : ℚ) : Option LossRegistory :=
  (cal_running_loss_aux batch_size st.batch_loss st.internal_label_list st.running_loss).map
    (fun rl => { st with running_loss := rl })

/-- Validation-phase loop of `cal_epoch_loss` (loss.py lines 135-137):
call `update_best_val_loss_epoch(epoch)` on each listed accumulator in
order. -/
def updateBestAll (epoch : ℕ) : List String → (String → EpochLoss) → Option (String → EpochLoss)
  | [], el => some el
  | l :: rest, el =>
      match update_best_val_loss_epoch (el l) epoch with
      | none => none
      | some e => updateBestAll epoch rest (fun s => if s = l then e else el s)

/-- Per-label loop body of `cal_epoch_loss` (loss.py lines 125-129):
append `running_loss[label] / dataset_size` to the label's accumulator
under `phase` and add it to the running `_total`. -/
def epoch_loss_step (rl : String → ℚ) (ds : ℚ) (phase : Phase)
    (acc : (String → EpochLoss) × ℚ) (l : String) : (String → EpochLoss) × ℚ :=
  let v := rl l / ds
  (fun s => if s = l then append_epoch_loss (acc.1 l) phase v else acc.1 s, acc.2 + v)

/-- Method `LossRegistory.cal_epoch_loss` (loss.py lines 123-141).  For each
internal label the epoch loss `running_loss[label] / dataset_size` is
appended under `phase` while `_total` accumulates their sum; `_total`
is then divided by the number of internal labels and appended to the
`'total'` accumulator.  When `phase == 'val'` every accumulator
(labels then `'total'`) gets `update_best_val_loss_epoch(epoch)`.
Finally `batch_loss` and `running_loss` are re-initialised.  `none`
models the `ZeroDivisionError` Python raises when `dataset_size == 0`
or when the label list is empty (line 131 divides by its length), and
the exceptions `update_best_val_loss_epoch` can raise. -/
def cal_epoch_loss (st : LossRegistory) (epoch : ℕ) (phase : Phase) (dataset_size : ℚ) :
    Option LossRegistory :=
  if dataset_size = 0 ∨ st.internal_label_list = [] then none
  else
    let p := st.internal_label_list.foldl
      (epoch_loss_step st.running_loss dataset_size phase) (st.epoch_loss, 0)
    let tot := p.2 / (st.internal_label_list.length : ℚ)
    let el1 : String → EpochLoss :=
      fun s => if s = "total" then append_epoch_loss (p.1 ("total")) phase tot else p.1 s
    match phase with
    | Phase.train =>
        some { st with epoch_loss := el1, batch_loss := fun _ => none,
                       running_loss := fun _ => 0 }
    | Phase.val =>
        match updateBestAll epoch (st.internal_label_list ++ ["total"]) el1 with
        | none => none
        | some el2 =>
            some { st with epoch_loss := el2, batch_loss := fun _ => none,
                           running_loss := fun _ => 0 }

/-- Evaluator strategy chosen by `set_eval` (metrics.py lines 563-587):
`ClsEval`, `RegEval` or `DeepSurvEval`. -/
inductive EvalStrategy where
  | clsEval : EvalStrategy
  | regEval : EvalStrategy
  | deepSurvEval : EvalStrategy
deriving DecidableEq

/-- Factory `set_eval` (metrics.py lines 606-623): construct the evaluator for
the three known task strings, raise `ValueError(f"Invalid task: ...")`
for anything else (modelled by `Except.error` with the message). -/
def set_eval (task : String) : Except String EvalStrategy :=
  if task = "classification" then Except.ok EvalStrategy.clsEval
  else if task = "regression" then Except.ok EvalStrategy.regEval
  else if task = "deepsurv" then Except.ok EvalStrategy.deepSurvEval
  else Except.error ("Invalid task: " ++ task ++ ".")

/-- Loss-ledger strategy constructed by `create_loss_reg` (loss.py lines
222-231): only `ClassificationLoss` and `RegressionLoss` exist — the
`DeepSurvLoss` branch is commented out in the source. -/
inductive LossStrategy where
  | classificationLoss : LossStrategy
  | regressionLoss : LossStrategy
deriving DecidableEq

/-- Failure of `create_loss_reg` on an unmatched task string: the code
logs `f"Cannot identify task: {task}."` and then executes
`return loss_reg` with `loss_reg` never assigned, so Python raises
`UnboundLocalError` (it does not raise a descriptive task error). -/
inductive CreateLossError where
  | unboundLocal : String → CreateLossError
deriving DecidableEq

/-- Factory `create_loss_reg` (loss.py lines 222-231).  The task strings
`'classification'` and `'regression'` construct their ledgers; every
other string — including `'deepsurv'`, whose branch is commented out —
falls to the `else`, which logs the message carried by
`CreateLossError.unboundLocal` and then fails with
`UnboundLocalError`. -/
def create_loss_reg (task : String) : Except CreateLossError LossStrategy :=
  if task = "classification" then Except.ok LossStrategy.classificationLoss
  else if task = "regression" then Except.ok LossStrategy.regressionLoss
  else Except.error (CreateLossError.unboundLocal ("Cannot identify task: " ++ task ++ "."))

/-- Invariant maintained by the append-then-update validation loop: the
processed losses are exactly the stored `val` list, `best_val_loss` is
their minimum `m`, and `best_epoch` is `i + 1` where `i` is the 0-based
position of the first occurrence of `m`. -/
def BestInv (p : List ℚ) (e : EpochLoss) : Prop :=
  e.val = p ∧
  ∃ m i, e.best_val_loss = some m ∧ e.best_epoch = some (i + 1) ∧
    i < p.length ∧ p.getD i 0 = m ∧
    (∀ x ∈ p, m ≤ x) ∧ (∀ j, j < i → m < p.getD j 0)

lemma bestInv_step (e : EpochLoss) (p : List ℚ) (v : ℚ)
    (h : BestInv p e) (hp : p ≠ []) :
    ∃ e', update_best_val_loss_epoch (append_epoch_loss e Phase.val v) p.length = some e' ∧
      BestInv (p ++ [v]) e' := by
  obtain ⟨hval, m, i, hbv, hbe, hilen, hgot, hlb, hfirst⟩ := h
  have hplen : p.length ≠ 0 := fun h0 => hp (List.length_eq_zero.mp h0)
  have hlast : get_latest_loss (append_epoch_loss e Phase.val v) Phase.val = some v := by
    simp [get_latest_loss, append_epoch_loss, EpochLoss.phaseList]
  have hbv' : (append_epoch_loss e Phase.val v).best_val_loss = some m := hbv
  by_cases hc : v < m
  · have hstep : update_best_val_loss_epoch (append_epoch_loss e Phase.val v) p.length =
        some { train := e.train, val := e.val ++ [v], best_val_loss := some v,
               best_epoch := some (p.length + 1), update_flag := true } := by
      rw [update_best_val_loss_epoch, if_neg hplen, hlast, hbv']
      simp [append_epoch_loss, hc]
    refine ⟨_, hstep, ?_⟩
    refine ⟨by simp [hval], v, p.length, rfl, rfl, ?_, ?_, ?_, ?_⟩
    · simp
    · rw [List.getD_append_right p [v] 0 p.length le_rfl]
      simp
    · intro x hx
      rcases List.mem_append.mp hx with hx | hx
      · exact le_of_lt (lt_of_lt_of_le hc (hlb x hx))
      · simp at hx; simp [hx]
    · intro j hj
      rw [List.getD_append p [v] 0 j hj, List.getD_eq_getElem p 0 hj]
      exact lt_of_lt_of_le hc (hlb _ (List.getElem_mem hj))
  · have hstep : update_best_val_loss_epoch (append_epoch_loss e Phase.val v) p.length =
        some { train := e.train, val := e.val ++ [v], best_val_loss := e.best_val_loss,
               best_epoch := e.best_epoch, update_flag := false } := by
      rw [update_best_val_loss_epoch, if_neg hplen, hlast, hbv']
      simp [append_epoch_loss, hc, hbv]
    refine ⟨_, hstep, ?_⟩
    refine ⟨by simp [hval], m, i, hbv, hbe, ?_, ?_, ?_, ?_⟩
    · simp; omega
    · rw [List.getD_append p [v] 0 i hilen]; exact hgot
    · intro x hx
      rcases List.mem_append.mp hx with hx | hx
      · exact hlb x hx
      · simp at hx; simpa [hx] using le_of_not_lt hc
    · intro j hj
      rw [List.getD_append p [v] 0 j (hj.trans hilen)]
      exact hfirst j hj

lemma bestInv_run (rest : List ℚ) : ∀ (p : List ℚ) (e : EpochLoss), BestInv p e → p ≠ [] →
    ∃ e', runValFrom e p.length rest = some e' ∧ BestInv (p ++ rest) e' := by
  induction rest with
  | nil => intro p e h _; exact ⟨e, rfl, by simpa using h⟩
  | cons v rest ih =>
      intro p e h hp
      obtain ⟨e1, hstep, hinv1⟩ := bestInv_step e p v h hp
      obtain ⟨e', hrun, hinv'⟩ := ih (p ++ [v]) e1 hinv1 (by simp)
      refine ⟨e', ?_, by simpa using hinv'⟩
      rw [runValFrom, hstep]
      simpa using hrun

lemma bestInv_first (v : ℚ) :
    ∃ e1, update_best_val_loss_epoch (append_epoch_loss initEpochLoss Phase.val v) 0 = some e1 ∧
      BestInv [v] e1 := by
  refine ⟨{ train := [], val := [v], best_val_loss := some v, best_epoch := some 1,
            update_flag := false },
    by simp [update_best_val_loss_epoch, get_latest_loss, append_epoch_loss,
      EpochLoss.phaseList, initEpochLoss], ?_⟩
  exact ⟨rfl, v, 0, rfl, rfl, by simp, rfl, by simp, by simp⟩

/-- C1: for every nonempty sequence of validation losses appended one per
epoch (epoch numbers `0, 1, ...`), the repeated
`update_best_val_loss_epoch` calls leave `best_val_loss` holding the
minimum loss seen so far and `best_epoch` holding the 1-based position of
its first occurrence (the strict `<` comparison means a later tie never
moves `best_epoch`); in particular the sequence
`[0.5, 0.3, 0.4, 0.3]` ends with `best_val_loss = 0.3` and
`best_epoch = 2`. -/
theorem updateBest_first_minimum (v : ℚ) (ls : List ℚ) :
    (∃ e, runValFrom initEpochLoss 0 (v :: ls) = some e ∧
      ∃ m i, e.best_val_loss = some m ∧ e.best_epoch = some (i + 1) ∧
        i < (v :: ls).length ∧ (v :: ls).getD i 0 = m ∧
        (∀ x ∈ v :: ls, m ≤ x) ∧ (∀ j, j < i → m < (v :: ls).getD j 0)) ∧
    (runValFrom initEpochLoss 0 [1/2, 3/10, 2/5, 3/10]).map
        (fun e => (e.best_val_loss, e.best_epoch)) = some (some (3/10), some 2) := by
  constructor
  · obtain ⟨e1, hstep, hinv1⟩ := bestInv_first v
    obtain ⟨e', hrun, hinv'⟩ := bestInv_run ls [v] e1 hinv1 (by simp)
    refine ⟨e', ?_, ?_⟩
    · rw [runValFrom, hstep]
      simpa using hrun
    · simpa using hinv'.2
  · norm_num [runValFrom, update_best_val_loss_epoch, append_epoch_loss, get_latest_loss,
      EpochLoss.phaseList, initEpochLoss]

/-- Closed witness for `updateBest_first_minimum`, instantiated at the
loss sequence `[0.5, 0.3]`. -/
theorem updateBest_first_minimum_witness :
    (∃ e, runValFrom initEpochLoss 0 [1/2, 3/10] = some e ∧
      ∃ m i, e.best_val_loss = some m ∧ e.best_epoch = some (i + 1) ∧
        i < ([1/2, 3/10] : List ℚ).length ∧ ([1/2, 3/10] : List ℚ).getD i 0 = m ∧
        (∀ x ∈ ([1/2, 3/10] : List ℚ), m ≤ x) ∧
        (∀ j, j < i → m < ([1/2, 3/10] : List ℚ).getD j 0)) ∧
    (runValFrom initEpochLoss 0 [1/2, 3/10, 2/5, 3/10]).map
        (fun e => (e.best_val_loss, e.best_epoch)) = some (some (3/10), some 2) :=
  updateBest_first_minimum (1/2) [3/10]

/-- C2 counterexample: the claim asserts the improvement flag is true
immediately after the epoch-0 call of `update_best_val_loss_epoch`, but
feeding the first loss `0.5` of the claimed scenario leaves
`update_flag = false`: the `epoch == 0` branch never touches the flag,
which starts `False`. -/
theorem updateBest_epoch0_flag_counterexample :
    (runValFrom initEpochLoss 0 [1/2]).map (fun e => e.update_flag) = some false := by
  norm_num [runValFrom, update_best_val_loss_epoch, append_epoch_loss, get_latest_loss,
    EpochLoss.phaseList, initEpochLoss]

/-- C2 (amended): the epoch-0 call unconditionally records the current
val loss as best and sets `best_epoch = 1`, but it leaves the
improvement flag unchanged (so the flag, initially `False`, is false —
not true — after the epoch-0 call); for the val losses
`[0.5, 0.3, 0.4, 0.3]` fed across epochs 0-3 the flag is false after
epoch 0, true after epoch 1, and false after epochs 2 and 3. -/
theorem updateBest_epoch0_and_flag_trace (e : EpochLoss) (v : ℚ) :
    (∃ e', update_best_val_loss_epoch (append_epoch_loss e Phase.val v) 0 = some e' ∧
      e'.best_val_loss = some v ∧ e'.best_epoch = some 1 ∧
      e'.update_flag = e.update_flag) ∧
    (runValFrom initEpochLoss 0 [1/2]).map (fun e => e.update_flag) = some false ∧
    (runValFrom initEpochLoss 0 [1/2, 3/10]).map (fun e => e.update_flag) = some true ∧
    (runValFrom initEpochLoss 0 [1/2, 3/10, 2/5]).map (fun e => e.update_flag) = some false ∧
    (runValFrom initEpochLoss 0 [1/2, 3/10, 2/5, 3/10]).map (fun e => e.update_flag) =
      some false := by
  refine ⟨?_, ?_, ?_, ?_, ?_⟩
  · refine ⟨{ train := e.train, val := e.val ++ [v], best_val_loss := some v,
              best_epoch := some 1, update_flag := e.update_flag }, ?_, rfl, rfl, rfl⟩
    simp [update_best_val_loss_epoch, get_latest_loss, append_epoch_loss, EpochLoss.phaseList]
  all_goals
    norm_num [runValFrom, update_best_val_loss_epoch, append_epoch_loss, get_latest_loss,
      EpochLoss.phaseList, initEpochLoss]

/-- Closed witness for `updateBest_epoch0_and_flag_trace`, instantiated
at the fresh accumulator and the loss `0.5`. -/
theorem updateBest_epoch0_and_flag_trace_witness :
    (∃ e', update_best_val_loss_epoch (append_epoch_loss initEpochLoss Phase.val (1/2)) 0 =
        some e' ∧ e'.best_val_loss = some (1/2) ∧ e'.best_epoch = some 1 ∧
        e'.update_flag = initEpochLoss.update_flag) ∧
    (runValFrom initEpochLoss 0 [1/2]).map (fun e => e.update_flag) = some false ∧
    (runValFrom initEpochLoss 0 [1/2, 3/10]).map (fun e => e.update_flag) = some true ∧
    (runValFrom initEpochLoss 0 [1/2, 3/10, 2/5]).map (fun e => e.update_flag) = some false ∧
    (runValFrom initEpochLoss 0 [1/2, 3/10, 2/5, 3/10]).map (fun e => e.update_flag) =
      some false :=
  updateBest_epoch0_and_flag_trace initEpochLoss (1/2)

lemma cal_running_loss_aux_spec (bs : ℚ) (bl : String → Option ℚ) (g : String → ℚ) :
    ∀ (labels : List String) (rl : String → ℚ), labels.Nodup → "total" ∉ labels →
      (∀ l ∈ labels, bl l = some (g l)) →
      ∃ rl', cal_running_loss_aux bs bl labels rl = some rl' ∧
        (∀ l ∈ labels, rl' l = rl l + g l * bs) ∧
        rl' ("total") = rl ("total") + (labels.map (fun l => rl l + g l * bs)).sum ∧
        (∀ s, s ∉ labels → s ≠ "total" → rl' s = rl s) := by
  intro labels
  induction labels with
  | nil => intro rl _ _ _; exact ⟨rl, rfl, by simp, by simp, fun _ _ _ => rfl⟩
  | cons l rest ih =>
      intro rl hnd hnt hbl
      have hlt : l ≠ "total" := fun h => hnt (h ▸ List.mem_cons_self l rest)
      have hlr : l ∉ rest := (List.nodup_cons.mp hnd).1
      have hbll : bl l = some (g l) := hbl l (List.mem_cons_self l rest)
      set r := rl l + g l * bs with hr
      set rl2 : String → ℚ :=
        fun s => if s = "total" then (if ("total" : String) = l then r else rl ("total")) + r
                 else if s = l then r else rl s with hrl2
      have hstep : cal_running_loss_aux bs bl (l :: rest) rl = cal_running_loss_aux bs bl rest rl2 := by
        rw [cal_running_loss_aux, hbll]
      obtain ⟨rl', hrun, hmem, htot, hoth⟩ := ih rl2 (List.nodup_cons.mp hnd).2
        (fun h => hnt (List.mem_cons_of_mem l h))
        (fun x hx => hbl x (List.mem_cons_of_mem l hx))
      have hrl2l : rl2 l = r := by simp [hrl2, hlt]
      have hrl2t : rl2 ("total") = rl ("total") + r := by
        simp only [hrl2, if_pos rfl]
        rw [if_neg (fun h : ("total" : String) = l => hlt h.symm)]
      have hrl2o : ∀ s, s ≠ l → s ≠ "total" → rl2 s = rl s := by
        intro s hsl hst; simp [hrl2, hsl, hst]
      refine ⟨rl', by rw [hstep]; exact hrun, ?_, ?_, ?_⟩
      · intro x hx
        rcases List.mem_cons.mp hx with hx | hx
        · subst hx
          rw [hoth x hlr hlt, hrl2l]
        · rw [hmem x hx, hrl2o x (fun h => hlr (h ▸ hx)) (fun h => hnt (h ▸ List.mem_cons_of_mem l hx))]
      · rw [htot, hrl2t]
        have hmapeq : rest.map (fun x => rl2 x + g x * bs) = rest.map (fun x => rl x + g x * bs) := by
          apply List.map_congr_left
          intro x hx
          rw [hrl2o x (fun h => hlr (h ▸ hx)) (fun h => hnt (h ▸ List.mem_cons_of_mem l hx))]
        rw [hmapeq]
        simp [hr]
        ring
      · intro s hs hst
        have hsl : s ≠ l := fun h => hs (h ▸ List.mem_cons_self l rest)
        have hsr : s ∉ rest := fun h => hs (List.mem_cons_of_mem l h)
        rw [hoth s hsr hst, hrl2o s hsl hst]

/-- Concrete one-label registry used for the C4 scenario: label `"a"`
with per-batch loss `1` and batch size `1`. -/
def c4St : LossRegistory :=
  { internal_label_list := ["a"]
    batch_loss := fun s => if s = "a" then some 1 else none
    running_loss := fun _ => 0
    epoch_loss := fun _ => initEpochLoss }

/-- C4 counterexample: the claim asserts that after every sequence of
`cal_running_loss` calls, `running_loss['total']` equals the sum of the
per-label running losses.  Two batches of size 1 with constant batch
loss 1 for the sole label `"a"` leave `running_loss['a'] = 2` but
`running_loss['total'] = 3` (each call adds the updated *cumulative*
per-label value to `'total'`, so batch 1 is counted twice), and
`3 ≠ 2`. -/
theorem cal_running_loss_total_counterexample :
    ((cal_running_loss c4St 1).bind (fun st => cal_running_loss st 1)).map
        (fun st => (st.running_loss ("total"), (st.internal_label_list.map st.running_loss).sum))
      = some (3, 2) ∧ (3 : ℚ) ≠ 2 := by
  refine ⟨?_, by norm_num⟩
  have h1 : ("total" : String) ≠ "a" := by decide
  have h2 : ("a" : String) ≠ "total" := by decide
  norm_num [cal_running_loss, cal_running_loss_aux, c4St, Option.bind, h1, h2]

/-- C4 (amended): `cal_running_loss` adds `batch_loss[label] *
batch_size` to `running_loss[label]` for each internal label, but it
adds each label's *updated cumulative* running loss to
`running_loss['total']` (line 121 of loss.py adds `_running_loss`, the
new per-label total, not the per-batch increment).  Consequently
`running_loss['total']` equals the sum over internal labels of
`running_loss[label]` only when the running losses start from the
freshly initialised all-zero state, i.e. after the first
`cal_running_loss` call of an epoch; on later calls every earlier
batch's contribution is counted again. -/
theorem cal_running_loss_total_accumulates (st : LossRegistory) (bs : ℚ) (g : String → ℚ)
    (hnd : st.internal_label_list.Nodup) (hnt : "total" ∉ st.internal_label_list)
    (hbl : ∀ l ∈ st.internal_label_list, st.batch_loss l = some (g l)) :
    ∃ st', cal_running_loss st bs = some st' ∧
      (∀ l ∈ st.internal_label_list, st'.running_loss l = st.running_loss l + g l * bs) ∧
      st'.running_loss ("total") =
        st.running_loss ("total") +
          (st.internal_label_list.map (fun l => st.running_loss l + g l * bs)).sum ∧
      ((∀ s, st.running_loss s = 0) →
        st'.running_loss ("total") =
          (st.internal_label_list.map (fun l => st'.running_loss l)).sum) := by
  obtain ⟨rl', hrun, hmem, htot, _⟩ :=
    cal_running_loss_aux_spec bs st.batch_loss g st.internal_label_list st.running_loss
      hnd hnt hbl
  refine ⟨{ st with running_loss := rl' },
    by rw [cal_running_loss, hrun]; rfl, hmem, htot, ?_⟩
  intro h0
  have : (st.internal_label_list.map (fun l => rl' l)) =
      (st.internal_label_list.map (fun l => st.running_loss l + g l * bs)) := by
    apply List.map_congr_left
    intro x hx
    exact hmem x hx
  simp only [this, htot, h0]
  simp

/-- Closed witness for `cal_running_loss_total_accumulates`,
instantiated at the one-label registry `c4St` with batch size 1. -/
theorem cal_running_loss_total_accumulates_witness :
    ∃ st', cal_running_loss c4St 1 = some st' ∧
      (∀ l ∈ c4St.internal_label_list,
        st'.running_loss l = c4St.running_loss l + (fun _ => (1 : ℚ)) l * 1) ∧
      st'.running_loss ("total") =
        c4St.running_loss ("total") +
          (c4St.internal_label_list.map
            (fun l => c4St.running_loss l + (fun _ => (1 : ℚ)) l * 1)).sum ∧
      ((∀ s, c4St.running_loss s = 0) →
        st'.running_loss ("total") =
          (c4St.internal_label_list.map (fun l => st'.running_loss l)).sum) :=
  cal_running_loss_total_accumulates c4St 1 (fun _ => 1) (by simp [c4St])
    (by simp [c4St]) (by intro l hl; simp [c4St] at hl; simp [c4St, hl])

lemma append_epoch_loss_best (e : EpochLoss) (phase : Phase) (v : ℚ) :
    (append_epoch_loss e phase v).best_val_loss = e.best_val_loss ∧
    (append_epoch_loss e phase v).best_epoch = e.best_epoch ∧
    (append_epoch_loss e phase v).update_flag = e.update_flag := by
  cases phase <;> exact ⟨rfl, rfl, rfl⟩

lemma append_epoch_loss_phaseList (e : EpochLoss) (phase : Phase) (v : ℚ) :
    (append_epoch_loss e phase v).phaseList phase = e.phaseList phase ++ [v] := by
  cases phase <;> rfl

lemma epoch_fold_best (rl : String → ℚ) (ds : ℚ) (phase : Phase) :
    ∀ (labels : List String) (el : String → EpochLoss) (acc : ℚ) (s : String),
      (((labels.foldl (epoch_loss_step rl ds phase) (el, acc)).1 s).best_val_loss =
          (el s).best_val_loss ∧
       ((labels.foldl (epoch_loss_step rl ds phase) (el, acc)).1 s).best_epoch =
          (el s).best_epoch ∧
       ((labels.foldl (epoch_loss_step rl ds phase) (el, acc)).1 s).update_flag =
          (el s).update_flag) := by
  intro labels
  induction labels with
  | nil => intro el acc s; exact ⟨rfl, rfl, rfl⟩
  | cons l rest ih =>
      intro el acc s
      rw [List.foldl_cons]
      simp only [epoch_loss_step]
      have h := ih (fun t => if t = l then append_epoch_loss (el l) phase (rl l / ds) else el t)
        (acc + rl l / ds) s
      refine ⟨?_, ?_, ?_⟩
      · rw [h.1]
        by_cases hs : s = l
        · rw [if_pos hs, hs]
          exact (append_epoch_loss_best (el l) phase _).1
        · simp only [if_neg hs]
      · rw [h.2.1]
        by_cases hs : s = l
        · rw [if_pos hs, hs]
          exact (append_epoch_loss_best (el l) phase _).2.1
        · simp only [if_neg hs]
      · rw [h.2.2]
        by_cases hs : s = l
        · rw [if_pos hs, hs]
          exact (append_epoch_loss_best (el l) phase _).2.2
        · simp only [if_neg hs]

lemma epoch_fold_spec (rl : String → ℚ) (ds : ℚ) (phase : Phase) :
    ∀ (labels : List String) (el : String → EpochLoss) (acc : ℚ), labels.Nodup →
      (∀ l ∈ labels,
        ((labels.foldl (epoch_loss_step rl ds phase) (el, acc)).1 l).phaseList phase =
          (el l).phaseList phase ++ [rl l / ds]) ∧
      (∀ s, s ∉ labels → (labels.foldl (epoch_loss_step rl ds phase) (el, acc)).1 s = el s) ∧
      (labels.foldl (epoch_loss_step rl ds phase) (el, acc)).2 =
        acc + (labels.map (fun l => rl l / ds)).sum := by
  intro labels
  induction labels with
  | nil => intro el acc _; exact ⟨by simp, fun s _ => rfl, by simp⟩
  | cons l rest ih =>
      intro el acc hnd
      have hlr : l ∉ rest := (List.nodup_cons.mp hnd).1
      obtain ⟨ihmem, ihoth, ihsum⟩ :=
        ih (fun t => if t = l then append_epoch_loss (el l) phase (rl l / ds) else el t)
          (acc + rl l / ds) (List.nodup_cons.mp hnd).2
      rw [List.foldl_cons]
      simp only [epoch_loss_step]
      refine ⟨?_, ?_, ?_⟩
      · intro x hx
        rcases List.mem_cons.mp hx with hx | hx
        · subst hx
          rw [ihoth x hlr, if_pos rfl, append_epoch_loss_phaseList]
        · rw [ihmem x hx, if_neg (fun h : x = l => hlr (h ▸ hx))]
      · intro s hs
        rw [ihoth s (fun h => hs (List.mem_cons_of_mem l h)),
          if_neg (fun h : s = l => hs (by rw [h]; exact List.mem_cons_self l rest))]
      · rw [ihsum]
        simp
        ring

lemma update_best_lists (e e' : EpochLoss) (epoch : ℕ)
    (h : update_best_val_loss_epoch e epoch = some e') :
    e'.train = e.train ∧ e'.val = e.val := by
  by_cases h0 : epoch = 0
  · rw [update_best_val_loss_epoch, if_pos h0] at h
    cases hg : get_latest_loss e Phase.val with
    | none => rw [hg] at h; cases h
    | some v => rw [hg] at h; cases h; exact ⟨rfl, rfl⟩
  · rw [update_best_val_loss_epoch, if_neg h0] at h
    cases hg : get_latest_loss e Phase.val with
    | none => rw [hg] at h; cases e.best_val_loss <;> cases h
    | some v =>
        rw [hg] at h
        cases hb : e.best_val_loss with
        | none => rw [hb] at h; cases h
        | some b =>
            rw [hb] at h
            dsimp only at h
            by_cases hc : v < b
            · rw [if_pos hc] at h; cases h; exact ⟨rfl, rfl⟩
            · rw [if_neg hc] at h; cases h; exact ⟨rfl, rfl⟩

lemma updateBestAll_lists (epoch : ℕ) : ∀ (ls : List String) (el el' : String → EpochLoss),
    updateBestAll epoch ls el = some el' →
    ∀ s, (el' s).train = (el s).train ∧ (el' s).val = (el s).val := by
  intro ls
  induction ls with
  | nil => intro el el' h s; cases h; exact ⟨rfl, rfl⟩
  | cons l rest ih =>
      intro el el' h s
      rw [updateBestAll] at h
      cases hu : update_best_val_loss_epoch (el l) epoch with
      | none => rw [hu] at h; cases h
      | some e =>
          rw [hu] at h
          have hlists := update_best_lists (el l) e epoch hu
          have := ih (fun t => if t = l then e else el t) el' h s
          refine ⟨?_, ?_⟩
          · rw [this.1]
            by_cases hs : s = l
            · rw [if_pos hs, hlists.1, hs]
            · rw [if_neg hs]
          · rw [this.2]
            by_cases hs : s = l
            · rw [if_pos hs, hlists.2, hs]
            · rw [if_neg hs]

lemma phaseList_congr {e e' : EpochLoss} (h1 : e'.train = e.train) (h2 : e'.val = e.val) :
    ∀ ph, e'.phaseList ph = e.phaseList ph := by
  intro ph
  cases ph
  · exact h1
  · exact h2

/-- C10: finalising an epoch with `phase == 'train'` leaves the
best-checkpoint state — `best_val_loss`, `best_epoch`, `update_flag` —
of every accumulator unchanged: `cal_epoch_loss` only invokes
`update_best_val_loss_epoch` when the phase is `'val'`. -/
theorem cal_epoch_loss_train_frame (st : LossRegistory) (epoch : ℕ) (ds : ℚ)
    (hds : ds ≠ 0) (hne : st.internal_label_list ≠ []) :
    ∃ st', cal_epoch_loss st epoch Phase.train ds = some st' ∧
      ∀ l, ((st'.epoch_loss l).best_val_loss = (st.epoch_loss l).best_val_loss ∧
            (st'.epoch_loss l).best_epoch = (st.epoch_loss l).best_epoch ∧
            (st'.epoch_loss l).update_flag = (st.epoch_loss l).update_flag) := by
  have hcond : ¬(ds = 0 ∨ st.internal_label_list = []) := by
    rintro (h | h)
    · exact hds h
    · exact hne h
  refine ⟨_, by rw [cal_epoch_loss, if_neg hcond], ?_⟩
  intro l
  dsimp only
  have hf := epoch_fold_best st.running_loss ds Phase.train st.internal_label_list
    st.epoch_loss 0
  by_cases hl : l = "total"
  · rw [if_pos hl]
    refine ⟨?_, ?_, ?_⟩
    · rw [(append_epoch_loss_best _ _ _).1, (hf ("total")).1, hl]
    · rw [(append_epoch_loss_best _ _ _).2.1, (hf ("total")).2.1, hl]
    · rw [(append_epoch_loss_best _ _ _).2.2, (hf ("total")).2.2, hl]
  · rw [if_neg hl]
    exact hf l

/-- Closed witness for `cal_epoch_loss_train_frame`, instantiated at a
fresh one-label registry with dataset size 1. -/
theorem cal_epoch_loss_train_frame_witness :
    ∃ st', cal_epoch_loss (initLossRegistory ["a"]) 0 Phase.train 1 = some st' ∧
      ∀ l, ((st'.epoch_loss l).best_val_loss =
              ((initLossRegistory ["a"]).epoch_loss l).best_val_loss ∧
            (st'.epoch_loss l).best_epoch =
              ((initLossRegistory ["a"]).epoch_loss l).best_epoch ∧
            (st'.epoch_loss l).update_flag =
              ((initLossRegistory ["a"]).epoch_loss l).update_flag) :=
  cal_epoch_loss_train_frame (initLossRegistory ["a"]) 0 1 (by norm_num)
    (by simp [initLossRegistory])

/-- C3: `cal_epoch_loss` appends `running_loss[label] / dataset_size`
to each internal label's accumulator under the given phase, and appends
to `'total'` the arithmetic mean of those per-label epoch losses (their
sum divided by the number of internal labels, not their sum). -/
theorem cal_epoch_loss_appends_mean (st : LossRegistory) (epoch : ℕ) (phase : Phase)
    (ds : ℚ) (st' : LossRegistory)
    (hnd : st.internal_label_list.Nodup) (hnt : "total" ∉ st.internal_label_list)
    (h : cal_epoch_loss st epoch phase ds = some st') :
    (∀ l ∈ st.internal_label_list,
        (st'.epoch_loss l).phaseList phase =
          (st.epoch_loss l).phaseList phase ++ [st.running_loss l / ds]) ∧
    (st'.epoch_loss ("total")).phaseList phase =
      (st.epoch_loss ("total")).phaseList phase ++
        [(st.internal_label_list.map (fun l => st.running_loss l / ds)).sum /
          (st.internal_label_list.length : ℚ)] := by
  by_cases hcond : ds = 0 ∨ st.internal_label_list = []
  · rw [cal_epoch_loss, if_pos hcond] at h
    cases h
  rw [cal_epoch_loss, if_neg hcond] at h
  obtain ⟨hfmem, hfoth, hfsum⟩ :=
    epoch_fold_spec st.running_loss ds phase st.internal_label_list st.epoch_loss 0 hnd
  set p := st.internal_label_list.foldl (epoch_loss_step st.running_loss ds phase)
    (st.epoch_loss, 0) with hp
  set tot := p.2 / (st.internal_label_list.length : ℚ) with htot
  set el1 : String → EpochLoss :=
    fun s => if s = "total" then append_epoch_loss (p.1 ("total")) phase tot else p.1 s with hel1
  have hel1mem : ∀ l ∈ st.internal_label_list,
      (el1 l).phaseList phase = (st.epoch_loss l).phaseList phase ++ [st.running_loss l / ds] := by
    intro l hl
    have hlt : l ≠ "total" := fun he => hnt (he ▸ hl)
    rw [hel1]
    simp only [if_neg hlt]
    exact hfmem l hl
  have hel1tot : (el1 ("total")).phaseList phase =
      (st.epoch_loss ("total")).phaseList phase ++
        [(st.internal_label_list.map (fun l => st.running_loss l / ds)).sum /
          (st.internal_label_list.length : ℚ)] := by
    rw [hel1]
    simp only [if_pos rfl, if_true]
    rw [append_epoch_loss_phaseList, hfoth ("total") hnt, htot, hfsum]
    rw [zero_add]
  cases phase with
  | train =>
      cases h
      exact ⟨hel1mem, hel1tot⟩
  | val =>
      dsimp only at h
      cases hu : updateBestAll epoch (st.internal_label_list ++ ["total"]) el1 with
      | none => rw [hu] at h; cases h
      | some el2 =>
          rw [hu] at h
          cases h
          have hlists := updateBestAll_lists epoch (st.internal_label_list ++ ["total"]) el1 el2 hu
          constructor
          · intro l hl
            rw [phaseList_congr (hlists l).1 (hlists l).2 Phase.val]
            exact hel1mem l hl
          · rw [phaseList_congr (hlists ("total")).1 (hlists ("total")).2 Phase.val]
            exact hel1tot

/-- Two-label registry whose per-label epoch losses (with dataset size
1) are `2.0` and `4.0`, the spec's `finalizeEpoch` example. -/
def c3St : LossRegistory :=
  { internal_label_list := ["a", "b"]
    batch_loss := fun _ => none
    running_loss := fun s => if s = "a" then 2 else if s = "b" then 4 else 0
    epoch_loss := fun _ => initEpochLoss }

/-- Closed witness for `cal_epoch_loss_appends_mean`: on `c3St` the
appended `'total'` epoch loss is the arithmetic mean `3`, not the sum
`6`. -/
theorem cal_epoch_loss_appends_mean_witness :
    ∃ st', cal_epoch_loss c3St 0 Phase.train 1 = some st' ∧
      ((∀ l ∈ c3St.internal_label_list,
          (st'.epoch_loss l).phaseList Phase.train =
            (c3St.epoch_loss l).phaseList Phase.train ++ [c3St.running_loss l / 1]) ∧
       (st'.epoch_loss ("total")).phaseList Phase.train =
         (c3St.epoch_loss ("total")).phaseList Phase.train ++
           [(c3St.internal_label_list.map (fun l => c3St.running_loss l / 1)).sum /
             (c3St.internal_label_list.length : ℚ)]) ∧
      (st'.epoch_loss ("total")).phaseList Phase.train = [3] := by
  have hcond : ¬((1 : ℚ) = 0 ∨ c3St.internal_label_list = []) := by
    rintro (h1 | h2)
    · exact one_ne_zero h1
    · exact absurd h2 (by decide)
  have hex : ∃ st', cal_epoch_loss c3St 0 Phase.train 1 = some st' := by
    rw [cal_epoch_loss, if_neg hcond]
    exact ⟨_, rfl⟩
  obtain ⟨st', h⟩ := hex
  have main := cal_epoch_loss_appends_mean c3St 0 Phase.train 1 st'
    (by decide) (by decide) h
  refine ⟨st', h, main, ?_⟩
  rw [main.2]
  have hba : ("b" : String) ≠ "a" := by decide
  norm_num [c3St, initEpochLoss, EpochLoss.phaseList, hba]

/-- Residual sum of squares `SS_res` of `sklearn.metrics.r2_score`. -/
def ss_res (y_obs y_pred : List ℚ) : ℚ :=
  ((y_obs.zip y_pred).map (fun p => (p.1 - p.2) ^ 2)).sum

/-- Total sum of squares `SS_tot` of `sklearn.metrics.r2_score`. -/
def ss_tot (y_obs : List ℚ) : ℚ :=
  (y_obs.map (fun y => (y - y_obs.sum / (y_obs.length : ℚ)) ^ 2)).sum

/-- Modelled from the external library `sklearn.metrics.r2_score`
(single output, default `force_finite=True`), which
`YYMixin._set_yy` (metrics.py line 210) calls: it returns
`1 - SS_res / SS_tot` when `SS_tot ≠ 0`; when `SS_tot = 0` (constant
ground truth) it replaces the non-finite score with `1.0` if
`SS_res = 0` and `0.0` otherwise, emitting at most an
`UndefinedMetricWarning` — it never raises. -/
def r2_score (y_obs y_pred : List ℚ) : ℚ :=
  if ss_tot y_obs = 0 then (if ss_res y_obs y_pred = 0 then 1 else 0)
  else 1 - ss_res y_obs y_pred / ss_tot y_obs

/-- C7 counterexample: on the claim's own example — constant observed
values `[5, 5, 5]` — the regression calculator's `r2_score` call
returns the value `0` (here against predictions `[1, 2, 3]`); the code
silently returns rather than failing with an `UndefinedMetric` error,
which is exactly what the claim says must not happen. -/
theorem r2_constant_counterexample :
    ss_tot [5, 5, 5] = 0 ∧ r2_score [5, 5, 5] [1, 2, 3] = 0 := by
  constructor <;> norm_num [r2_score, ss_tot, ss_res]

/-- C7 (amended): when R² is requested on a split whose ground truth is
constant (`SS_tot = 0`), the computation does not fail: sklearn's
`r2_score` (with its default `force_finite=True`) returns `0.0` — or
`1.0` when the predictions are exactly the constant truth — and
`_set_yy` stores that number; no `UndefinedMetric` error is surfaced. -/
theorem r2_constant_returns_zero (y_obs y_pred : List ℚ) (c : ℚ)
    (hc : ∀ y ∈ y_obs, y = c) (hne : y_obs ≠ []) :
    ss_tot y_obs = 0 ∧
    r2_score y_obs y_pred = (if ss_res y_obs y_pred = 0 then 1 else 0) := by
  have hlen : (y_obs.length : ℚ) ≠ 0 := by
    simpa using fun h => hne (List.length_eq_zero.mp h)
  have hsum : y_obs.sum = (y_obs.length : ℚ) * c := by
    rw [List.sum_eq_card_nsmul y_obs c hc, nsmul_eq_mul]
  have hmean : y_obs.sum / (y_obs.length : ℚ) = c := by
    rw [hsum]
    field_simp
  have htot : ss_tot y_obs = 0 := by
    rw [ss_tot]
    apply List.sum_eq_zero
    intro x hx
    obtain ⟨y, hy, hyx⟩ := List.mem_map.mp hx
    rw [← hyx, hmean, hc y hy, sub_self]
    ring
  exact ⟨htot, by rw [r2_score, if_pos htot]⟩

/-- Closed witness for `r2_constant_returns_zero` at the claim's
example: observed `[5, 5, 5]`, predicted `[1, 2, 3]`. -/
theorem r2_constant_returns_zero_witness :
    ss_tot [5, 5, 5] = 0 ∧
    r2_score [5, 5, 5] [1, 2, 3] = (if ss_res [5, 5, 5] [1, 2, 3] = 0 then 1 else 0) :=
  r2_constant_returns_zero [5, 5, 5] [1, 2, 3] 5 (by norm_num) (by simp)

/-- C8 counterexample: the claim says both factories construct the
strategy matching `'deepsurv'`, but `create_loss_reg "deepsurv"` does
not construct anything — the `DeepSurvLoss` branch is commented out, so
the call logs `Cannot identify task: deepsurv.` and fails with
`UnboundLocalError` (while `set_eval "deepsurv"` does succeed). -/
theorem create_loss_reg_deepsurv_counterexample :
    create_loss_reg ("deepsurv") =
      Except.error (CreateLossError.unboundLocal ("Cannot identify task: deepsurv.")) ∧
    set_eval ("deepsurv") = Except.ok EvalStrategy.deepSurvEval := by
  constructor <;> rfl

/-- C8 (amended): `set_eval` constructs the matching evaluator for each
of `'classification'`, `'regression'` and `'deepsurv'` and raises a
descriptive `ValueError` (`Invalid task: ...`) for every other string;
`create_loss_reg` constructs the matching ledger only for
`'classification'` and `'regression'` — every other string, including
`'deepsurv'`, takes the error branch, which logs a descriptive message
but then fails with an `UnboundLocalError` rather than a typed invalid
task error. -/
theorem task_factories_dispatch (task : String) :
    ((task = "classification" → set_eval task = Except.ok EvalStrategy.clsEval) ∧
     (task = "regression" → set_eval task = Except.ok EvalStrategy.regEval) ∧
     (task = "deepsurv" → set_eval task = Except.ok EvalStrategy.deepSurvEval) ∧
     (task ∉ ["classification", "regression", "deepsurv"] →
        set_eval task = Except.error ("Invalid task: " ++ task ++ "."))) ∧
    ((task = "classification" → create_loss_reg task = Except.ok LossStrategy.classificationLoss) ∧
     (task = "regression" → create_loss_reg task = Except.ok LossStrategy.regressionLoss) ∧
     (task ∉ ["classification", "regression"] →
        create_loss_reg task = Except.error
          (CreateLossError.unboundLocal ("Cannot identify task: " ++ task ++ ".")))) := by
  refine ⟨⟨?_, ?_, ?_, ?_⟩, ?_, ?_, ?_⟩
  · intro h; simp [set_eval, h]
  · intro h
    have hcls : task ≠ "classification" := by rw [h]; decide
    simp [set_eval, h, hcls]
  · intro h
    have hcls : task ≠ "classification" := by rw [h]; decide
    have hreg : task ≠ "regression" := by rw [h]; decide
    simp [set_eval, h, hcls, hreg]
  · intro h
    simp only [List.mem_cons, List.mem_singleton, not_or] at h
    obtain ⟨h1, h2, h3⟩ := h
    simp [set_eval, h1, h2, h3]
  · intro h; simp [create_loss_reg, h]
  · intro h
    have hcls : task ≠ "classification" := by rw [h]; decide
    simp [create_loss_reg, h, hcls]
  · intro h
    simp only [List.mem_cons, List.mem_singleton, not_or] at h
    obtain ⟨h1, h2⟩ := h
    simp [create_loss_reg, h1, h2]

/-- Closed witness for `task_factories_dispatch`, instantiated at the
task string `'regression'`. -/
theorem task_factories_dispatch_witness :
    ((("regression" : String) = "classification" →
        set_eval ("regression") = Except.ok EvalStrategy.clsEval) ∧
     (("regression" : String) = "regression" →
        set_eval ("regression") = Except.ok EvalStrategy.regEval) ∧
     (("regression" : String) = "deepsurv" →
        set_eval ("regression") = Except.ok EvalStrategy.deepSurvEval) ∧
     (("regression" : String) ∉ ["classification", "regression", "deepsurv"] →
        set_eval ("regression") = Except.error ("Invalid task: " ++ "regression" ++ "."))) ∧
    ((("regression" : String) = "classification" →
        create_loss_reg ("regression") = Except.ok LossStrategy.classificationLoss) ∧
     (("regression" : String) = "regression" →
        create_loss_reg ("regression") = Except.ok LossStrategy.regressionLoss) ∧
     (("regression" : String) ∉ ["classification", "regression"] →
        create_loss_reg ("regression") = Except.error
          (CreateLossError.unboundLocal ("Cannot identify task: " ++ "regression" ++ ".")))) :=
  task_factories_dispatch ("regression")

/-- One row of the summary table built by `make_summary` (metrics.py
lines 344-360): the `group` column plus the remaining columns
(`datetime`, `weight`, and the per-label formatted metric strings),
which `update_summary` carries along untouched. -/
structure SummaryRow where
  group : String
  payload : List String
deriving DecidableEq

/-- Sorting step `df_summary.sort_values('group')` of `make_summary`
(metrics.py line 359): ascending sort of the new summary rows by group
name.  `update_summary` receives its input already sorted this way. -/
def sort_summary (rows : List SummaryRow) : List SummaryRow :=
  rows.insertionSort (fun a b => a.group ≤ b.group)

/-- Method `MetricsMixin.update_summary` (metrics.py lines 381-398), acting on
the summary-file contents (`none` models a missing `summary.csv`).
When the file exists, the previous rows are loaded and the new rows
concatenated beneath them — no re-sort of the combined table; when it
is missing, the summary directory is created (the returned flag) and
the new rows written fresh.  Either way the file is rewritten in
full. -/
def update_summary (df_summary : List SummaryRow) (file : Option (List SummaryRow)) :
    List SummaryRow × Bool :=
  match file with
  | some df_prev => (df_prev ++ df_summary, false)
  | none => (df_summary, true)

/-- C9 counterexample: persisting a block with group `"a"` beneath an
existing file holding group `"b"` leaves the file ordered
`["b", "a"]`, which is not sorted by group name ascending —
`update_summary` concatenates without re-sorting the combined table. -/
theorem update_summary_not_sorted_counterexample :
    (update_summary [⟨"a", []⟩] (some [⟨"b", []⟩])).1 =
      [⟨"b", []⟩, ⟨"a", []⟩] ∧
    ¬ List.Sorted (fun x y : SummaryRow => x.group ≤ y.group)
        (update_summary [⟨"a", []⟩] (some [⟨"b", []⟩])).1 := by
  constructor
  · rfl
  · intro hs
    have hba : (⟨"b", []⟩ : SummaryRow).group ≤ (⟨"a", []⟩ : SummaryRow).group := by
      have := List.rel_of_sorted_cons (l := [(⟨"a", []⟩ : SummaryRow)]) hs
      exact this _ (List.mem_singleton.mpr rfl)
    rw [String.le_iff_toList_le] at hba
    exact absurd hba (by decide)

instance : IsTrans SummaryRow (fun a b => a.group ≤ b.group) :=
  ⟨fun _ _ _ h1 h2 => le_trans h1 h2⟩

instance : IsTotal SummaryRow (fun a b => a.group ≤ b.group) :=
  ⟨fun a b => le_total a.group b.group⟩

/-- C9 (amended): `update_summary` never overwrites previously persisted
rows — with an existing file the new rows are concatenated beneath the
previous rows (so two one-row persists onto a fresh path leave exactly 2
rows), and with no file the summary directory is created and the rows
written fresh.  Each newly appended block is sorted by group name
ascending (`make_summary` sorts before persisting), but the concatenated
file keeps the previous rows' order and is not re-sorted as a whole. -/
theorem update_summary_appends (prev new rows : List SummaryRow)
    (r1 r2 : SummaryRow) :
    update_summary new (some prev) = (prev ++ new, false) ∧
    update_summary new none = (new, true) ∧
    List.Sorted (fun a b : SummaryRow => a.group ≤ b.group) (sort_summary rows) ∧
    ((update_summary [r2] (some (update_summary [r1] none).1)).1) = [r1, r2] := by
  refine ⟨rfl, rfl, ?_, rfl⟩
  apply List.sorted_insertionSort

/-- Closed witness for `update_summary_appends`, instantiated at
concrete one-row tables. -/
theorem update_summary_appends_witness :
    update_summary [⟨"g2", []⟩] (some [⟨"g1", []⟩]) = ([⟨"g1", []⟩, ⟨"g2", []⟩], false) ∧
    update_summary [⟨"g2", []⟩] none = ([⟨"g2", []⟩], true) ∧
    List.Sorted (fun a b : SummaryRow => a.group ≤ b.group)
      (sort_summary [⟨"g2", []⟩, ⟨"g1", []⟩]) ∧
    ((update_summary [⟨"g2", []⟩] (some (update_summary [⟨"g1", []⟩] none).1)).1) =
      [⟨"g1", []⟩, ⟨"g2", []⟩] :=
  update_summary_appends [⟨"g1", []⟩] [⟨"g2", []⟩] [⟨"g2", []⟩, ⟨"g1", []⟩]
    ⟨"g1", []⟩ ⟨"g2", []⟩

/-- Modelled from the external library: `np.unique` of the concatenated
false-positive-rate arrays (metrics.py line 157) — the ascending sorted
list of distinct values. -/
def npUnique (l : List ℚ) : List ℚ := l.dedup.insertionSort (· ≤ ·)

/-- Modelled from the external library: one-dimensional linear
interpolation `np.interp x xp fp` (metrics.py line 162) for `xp`
non-decreasing.  `j` is `np.searchsorted(xp, x, side='right')`: below
`xp[0]` the value clamps to `fp[0]`, at or above `xp[-1]` to `fp[-1]`,
otherwise linear interpolation on `[xp[j-1], xp[j])`; at a repeated
`xp` value this picks `fp` at the last occurrence. -/
def npInterp (xp fp : List ℚ) (x : ℚ) : ℚ :=
  let j := (xp.filter (fun t => t ≤ x)).length
  if j = 0 then fp.headD 0
  else if j = xp.length then fp.getLastD 0
  else
    fp.getD (j - 1) 0 +
      (x - xp.getD (j - 1) 0) * (fp.getD j 0 - fp.getD (j - 1) 0) /
        (xp.getD j 0 - xp.getD (j - 1) 0)

/-- Modelled from the external library: trapezoidal integration
`np.trapz` over consecutive points, which `sklearn.metrics.auc`
computes on an increasing `x` array. -/
def trapArea : List (ℚ × ℚ) → ℚ
  | (x1, y1) :: (x2, y2) :: rest => (x2 - x1) * (y1 + y2) / 2 + trapArea ((x2, y2) :: rest)
  | _ => 0

/-- Function `sklearn.metrics.auc(fpr, tpr)` as stored by `ROCMixin._set_roc`
(metrics.py line 97): trapezoidal area under the (fpr, tpr) points. -/
def auc (fpr tpr : List ℚ) : ℚ := trapArea (fpr.zip tpr)

/-- Macro-averaging step of `ROCMixin._cal_label_roc_multi` (metrics.py
lines 156-169), taking the per-class ROC curves as input: `all_fpr` is
the union (`np.unique` of the concatenation) of the per-class fpr
arrays, every class's tpr is interpolated onto that grid with
`np.interp`, the interpolated tprs are summed and divided by the number
of classes, and the pair (`all_fpr`, `mean_tpr`) is the stored macro
curve. -/
def cal_label_roc_multi (curves : List (List ℚ × List ℚ)) : List ℚ × List ℚ :=
  let all_fpr := npUnique (curves.map Prod.fst).flatten
  let num_classes := curves.length
  let mean_tpr := all_fpr.map
    (fun x => (curves.map (fun c => npInterp c.1 c.2 x)).sum / (num_classes : ℚ))
  (all_fpr, mean_tpr)

/-- Branch taken by `ROCMixin.cal_label_metrics`. -/
inductive RocPath where
  | multi : RocPath
  | binary : RocPath
deriving DecidableEq

/-- Dispatch of `ROCMixin.cal_label_metrics` (metrics.py lines 183-188):
`isMultiClass = (len(pred_name_list) > 2)` selects the multi-class
path, otherwise the binary path. -/
def cal_label_metrics_path (numPredCols : ℕ) : RocPath :=
  if numPredCols > 2 then RocPath.multi else RocPath.binary

/-- C5 counterexample: three identical per-class ROC curves with the
vertical segment `(1/2, 1/5) → (1/2, 4/5)` (fpr `[0, 1/2, 1/2, 1]`,
tpr `[0, 1/5, 4/5, 1]`, a realisable binary ROC staircase).
`np.interp` onto the deduplicated fpr grid keeps only the upper tpr
`4/5` at `1/2`, so the macro-averaged curve is `([0, 1/2, 1],
[0, 4/5, 1])` with AUC `13/20`, while each class's own AUC is `1/2`:
the macro curve does not equal the single class's curve and the macro
AUC does not equal the class AUC. -/
theorem multiclass_interp_counterexample :
    cal_label_roc_multi
        (List.replicate 3 ([0, 1/2, 1/2, 1], [0, 1/5, 4/5, 1])) =
      ([0, 1/2, 1], [0, 4/5, 1]) ∧
    auc [0, 1/2, 1] [0, 4/5, 1] = 13/20 ∧
    auc [0, 1/2, 1/2, 1] [0, 1/5, 4/5, 1] = 1/2 ∧
    (13/20 : ℚ) ≠ 1/2 := by
  refine ⟨?_, by norm_num [auc, trapArea], by norm_num [auc, trapArea], by norm_num⟩
  have h1 : npUnique (List.replicate 3 ([0, 1/2, 1/2, 1] : List ℚ)).flatten = [0, 1/2, 1] := by
    norm_num [npUnique, List.replicate, List.dedup_cons_of_mem, List.dedup_cons_of_not_mem,
      List.insertionSort, List.orderedInsert]
  have h2 : npInterp [0, 1/2, 1/2, 1] [0, 1/5, 4/5, 1] 0 = 0 := by
    norm_num [npInterp, List.filter]
  have h3 : npInterp [0, 1/2, 1/2, 1] [0, 1/5, 4/5, 1] (1/2) = 4/5 := by
    norm_num [npInterp, List.filter]
  have h4 : npInterp [0, 1/2, 1/2, 1] [0, 1/5, 4/5, 1] 1 = 1 := by
    norm_num [npInterp, List.filter]
  rw [cal_label_roc_multi]
  norm_num [List.map_replicate, List.sum_replicate, h1, h2, h3, h4]

lemma countLE_pairwise : ∀ (l : List ℚ), l.Pairwise (· < ·) →
    ∀ i (h : i < l.length), (l.filter (fun t => t ≤ l[i])).length = i + 1 := by
  intro l
  induction l with
  | nil => intro _ i h; simp at h
  | cons a t ih =>
      intro hp i h
      obtain ⟨hat, ht⟩ := List.pairwise_cons.mp hp
      cases i with
      | zero =>
          simp only [List.getElem_cons_zero, List.filter_cons]
          have ha : decide (a ≤ a) = true := by simp
          rw [ha]
          have hnone : t.filter (fun x => decide (x ≤ a)) = [] := by
            rw [List.filter_eq_nil_iff]
            intro x hx
            simpa using not_le_of_lt (hat x hx)
          simp [hnone]
      | succ i =>
          simp only [List.getElem_cons_succ, List.filter_cons]
          have hi : i < t.length := by simpa using h
          have ha : decide (a ≤ t[i]) = true := by
            simpa using le_of_lt (hat _ (List.getElem_mem hi))
          rw [ha]
          simp only [if_true, List.length_cons]
          rw [ih ht i hi]

lemma npInterp_self (xp fp : List ℚ) (hp : xp.Pairwise (· < ·))
    (hlen : fp.length = xp.length) :
    ∀ i (h : i < xp.length), npInterp xp fp (xp[i]) = fp[i] := by
  intro i h
  have hcount := countLE_pairwise xp hp i h
  have hfi : i < fp.length := by omega
  rw [npInterp]
  simp only [hcount]
  rw [if_neg (Nat.succ_ne_zero i)]
  by_cases hend : i + 1 = xp.length
  · rw [if_pos hend]
    rw [List.getLastD_eq_getLast?, List.getLast?_eq_getElem?]
    have hfl : fp.length - 1 = i := by omega
    rw [hfl, List.getElem?_eq_getElem hfi]
    rfl
  · rw [if_neg hend]
    have hx : xp.getD (i + 1 - 1) 0 = xp[i] := List.getD_eq_getElem xp 0 h
    have hf : fp.getD (i + 1 - 1) 0 = fp[i] := List.getD_eq_getElem fp 0 hfi
    rw [hx, hf, sub_self, zero_mul, zero_div, add_zero]

lemma npUnique_replicate_flatten (k : ℕ) (hk : k ≠ 0) (l : List ℚ)
    (hp : l.Pairwise (· < ·)) : npUnique (List.replicate k l).flatten = l := by
  have hnodup : l.Nodup := hp.imp (fun h => ne_of_lt h)
  have hmem : ∀ a : ℚ, a ∈ (List.replicate k l).flatten ↔ a ∈ l := by
    intro a
    rw [List.mem_flatten]
    constructor
    · rintro ⟨s, hs, ha⟩
      rw [List.eq_of_mem_replicate hs] at ha
      exact ha
    · intro ha
      exact ⟨l, List.mem_replicate.mpr ⟨hk, rfl⟩, ha⟩
  have hperm : List.Perm (List.replicate k l).flatten.dedup l := by
    rw [List.perm_ext_iff_of_nodup (List.nodup_dedup _) hnodup]
    intro a
    rw [List.mem_dedup]
    exact hmem a
  have hsortl : List.Sorted (· ≤ ·) l := hp.imp (fun h => le_of_lt h)
  exact List.eq_of_perm_of_sorted
    ((List.perm_insertionSort _ _).trans hperm)
    (List.sorted_insertionSort _ _) hsortl

/-- C5 (amended): `cal_label_metrics` takes the multi-class path exactly
when more than two `pred_<label>_*` columns exist, and that path
interpolates each class's tpr onto the union of the observed fpr values
and averages across classes.  With `k` identical per-class ROC curves
whose fpr grid is strictly increasing (no vertical segments), the
macro-averaged curve equals the single class's curve and the macro AUC
equals each class's AUC; when the shared curve repeats an fpr value,
`np.interp` keeps only the uppermost tpr there and both equalities can
fail (see the counterexample). -/
theorem multiclass_interp_identical (k : ℕ) (fpr tpr : List ℚ)
    (hk : k ≠ 0) (hlen : tpr.length = fpr.length) (hmono : fpr.Pairwise (· < ·)) :
    (∀ n, cal_label_metrics_path n = RocPath.multi ↔ 2 < n) ∧
    cal_label_roc_multi (List.replicate k (fpr, tpr)) = (fpr, tpr) ∧
    auc (cal_label_roc_multi (List.replicate k (fpr, tpr))).1
        (cal_label_roc_multi (List.replicate k (fpr, tpr))).2 = auc fpr tpr := by
  have hdispatch : ∀ n, cal_label_metrics_path n = RocPath.multi ↔ 2 < n := by
    intro n
    rw [cal_label_metrics_path]
    by_cases h : n > 2
    · simp [h]
    · simp [h]
  have hcurve : cal_label_roc_multi (List.replicate k (fpr, tpr)) = (fpr, tpr) := by
    rw [cal_label_roc_multi]
    have hfst : (List.replicate k (fpr, tpr)).map Prod.fst = List.replicate k fpr := by
      rw [List.map_replicate]
    rw [hfst, npUnique_replicate_flatten k hk fpr hmono]
    have hmap : fpr.map (fun x =>
        ((List.replicate k (fpr, tpr)).map (fun c => npInterp c.1 c.2 x)).sum /
          ((List.replicate k (fpr, tpr)).length : ℚ)) = tpr := by
      apply List.ext_getElem
      · rw [List.length_map]
        omega
      · intro i h1 h2
        rw [List.getElem_map]
        have hsum : ((List.replicate k (fpr, tpr)).map
            (fun c => npInterp c.1 c.2 (fpr[i]))).sum =
              (k : ℚ) * npInterp fpr tpr (fpr[i]) := by
          rw [List.map_replicate, List.sum_replicate, nsmul_eq_mul]
        rw [hsum, List.length_replicate]
        have hkq : (k : ℚ) ≠ 0 := Nat.cast_ne_zero.mpr hk
        rw [mul_div_assoc, mul_comm, div_mul_cancel₀ _ hkq]
        exact npInterp_self fpr tpr hmono hlen i (by simpa [List.length_map] using h1)
    rw [hmap]
  exact ⟨hdispatch, hcurve, by rw [hcurve]⟩

/-- Closed witness for `multiclass_interp_identical`: three identical
classes sharing the strictly increasing curve
`([0, 1/2, 1], [0, 4/5, 1])`. -/
theorem multiclass_interp_identical_witness :
    (∀ n, cal_label_metrics_path n = RocPath.multi ↔ 2 < n) ∧
    cal_label_roc_multi (List.replicate 3 (([0, 1/2, 1] : List ℚ), ([0, 4/5, 1] : List ℚ))) =
      ([0, 1/2, 1], [0, 4/5, 1]) ∧
    auc (cal_label_roc_multi
          (List.replicate 3 (([0, 1/2, 1] : List ℚ), ([0, 4/5, 1] : List ℚ)))).1
        (cal_label_roc_multi
          (List.replicate 3 (([0, 1/2, 1] : List ℚ), ([0, 4/5, 1] : List ℚ)))).2 =
      auc [0, 1/2, 1] [0, 4/5, 1] :=
  multiclass_interp_identical 3 [0, 1/2, 1] [0, 4/5, 1] (by norm_num) (by norm_num)
    (by norm_num [List.pairwise_cons])

/-- Number of scores in `xs` that are at least `t` (cumulative
true/false positives at threshold `t`). -/
def cGE (xs : List ℚ) (t : ℚ) : ℕ := (xs.filter (fun x => t ≤ x)).length

/-- Number of scores in `xs` strictly above `t`. -/
def cGT (xs : List ℚ) (t : ℚ) : ℕ := (xs.filter (fun x => t < x)).length

/-- Number of scores in `xs` equal to `t`. -/
def cEq (xs : List ℚ) (t : ℚ) : ℕ := (xs.filter (fun x => x = t)).length

/-- Distinct score values in decreasing order, the thresholds of
`sklearn.metrics.roc_curve`. -/
def thresholds (scores : List ℚ) : List ℚ := scores.dedup.insertionSort (· ≥ ·)

/-- Modelled from the external library: the (fpr, tpr) points of
`sklearn.metrics.roc_curve(y_true, y_score)` as called by
`_cal_label_roc_binary` (metrics.py line 121), with `pos` the scores of
positive samples and `neg` the scores of negative samples.  At each
distinct threshold `t` (taken in decreasing order) the point is
`(#neg ≥ t / N, #pos ≥ t / P)`; the leading extra threshold above every
score contributes the initial point `(0, 0)`.  sklearn's default
`drop_intermediate=True` additionally removes interior points that are
exact midpoints of their neighbours in both coordinates; such points
are collinear, so the trapezoidal AUC of the curve is unchanged, and
the model omits the removal. -/
def roc_points (pos neg : List ℚ) : List (ℚ × ℚ) :=
  (0, 0) :: (thresholds (pos ++ neg)).map
    (fun t => ((cGE neg t : ℚ) / (neg.length : ℚ), (cGE pos t : ℚ) / (pos.length : ℚ)))

/-- AUC of the binary path: `_set_roc` stores
`metrics.auc(fpr, tpr)` — trapezoidal integration over the
`roc_curve` points (metrics.py lines 97 and 117-122). -/
def binary_auc (pos neg : List ℚ) : ℚ := trapArea (roc_points pos neg)

/-- Reference rank-sum (Mann–Whitney) AUC over all (score, label)
pairs, following the spec's cross-check formula: each
(positive, negative) pair contributes 1 when the positive scores
higher, 1/2 on a tie, 0 otherwise, normalised by the number of
pairs. -/
def rank_sum_auc (pos neg : List ℚ) : ℚ :=
  ((pos.map (fun p =>
      (neg.map (fun n => if n < p then (1 : ℚ) else if n = p then 1/2 else 0)).sum)).sum) /
    ((pos.length : ℚ) * (neg.length : ℚ))

lemma le_foldr_max : ∀ (l : List ℚ) (c : ℚ), ∀ x ∈ l, x ≤ l.foldr max c := by
  intro l
  induction l with
  | nil => intro c x hx; cases hx
  | cons a t ih =>
      intro c x hx
      rcases List.mem_cons.mp hx with hx | hx
      · rw [hx, List.foldr_cons]
        exact le_max_left _ _
      · rw [List.foldr_cons]
        exact le_trans (ih c x hx) (le_max_right _ _)

lemma length_filter_split : ∀ (l : List ℚ) (p q r : ℚ → Bool),
    (∀ x ∈ l, p x = (q x || r x)) → (∀ x ∈ l, ¬(q x = true ∧ r x = true)) →
    (l.filter p).length = (l.filter q).length + (l.filter r).length := by
  intro l
  induction l with
  | nil => intro p q r _ _; rfl
  | cons a t ih =>
      intro p q r hiff hdis
      have ha := hiff a (List.mem_cons_self a t)
      have hda := hdis a (List.mem_cons_self a t)
      have ht := ih p q r (fun x hx => hiff x (List.mem_cons_of_mem a hx))
        (fun x hx => hdis x (List.mem_cons_of_mem a hx))
      simp only [List.filter_cons]
      cases hq : q a <;> cases hr : r a
      · rw [hq, hr] at ha
        simp only [Bool.or_self] at ha
        simp [ha, hq, hr, ht]
      · rw [hq, hr] at ha
        simp only [Bool.or_true] at ha
        simp [ha, hq, hr, ht]
        omega
      · rw [hq, hr] at ha
        simp only [Bool.true_or] at ha
        simp [ha, hq, hr, ht]
        omega
      · exact absurd ⟨hq, hr⟩ hda

lemma sum_filter_split : ∀ (l : List ℚ) (f : ℚ → ℚ) (p q r : ℚ → Bool),
    (∀ x ∈ l, p x = (q x || r x)) → (∀ x ∈ l, ¬(q x = true ∧ r x = true)) →
    ((l.filter p).map f).sum = ((l.filter q).map f).sum + ((l.filter r).map f).sum := by
  intro l
  induction l with
  | nil => intro f p q r _ _; simp
  | cons a t ih =>
      intro f p q r hiff hdis
      have ha := hiff a (List.mem_cons_self a t)
      have hda := hdis a (List.mem_cons_self a t)
      have ht := ih f p q r (fun x hx => hiff x (List.mem_cons_of_mem a hx))
        (fun x hx => hdis x (List.mem_cons_of_mem a hx))
      simp only [List.filter_cons]
      cases hq : q a <;> cases hr : r a
      · rw [hq, hr] at ha
        simp only [Bool.or_self] at ha
        simp [ha, hq, hr, ht]
      · rw [hq, hr] at ha
        simp only [Bool.or_true] at ha
        simp [ha, hq, hr, ht]
        ring
      · rw [hq, hr] at ha
        simp only [Bool.true_or] at ha
        simp [ha, hq, hr, ht]
        ring
      · exact absurd ⟨hq, hr⟩ hda

lemma sum_filter_eq_const : ∀ (l : List ℚ) (v : ℚ) (f : ℚ → ℚ),
    ((l.filter (fun x => x = v)).map f).sum = (cEq l v : ℚ) * f v := by
  intro l
  induction l with
  | nil => intro v f; simp [cEq]
  | cons a t ih =>
      intro v f
      rw [cEq, List.filter_cons]
      by_cases hav : a = v
      · have hd : decide (a = v) = true := by simpa using hav
        rw [hd]
        simp only [if_true, List.map_cons, List.sum_cons, List.length_cons]
        rw [ih v f, hav]
        rw [cEq]
        push_cast
        ring
      · have hd : decide (a = v) = false := by simpa using hav
        rw [hd]
        simp only [Bool.false_eq_true, if_false]
        exact ih v f

lemma sum_sum_comm (f : ℚ → ℚ → ℚ) : ∀ (l1 l2 : List ℚ),
    (l1.map (fun a => (l2.map (f a)).sum)).sum =
      (l2.map (fun b => (l1.map (fun a => f a b)).sum)).sum := by
  intro l1
  induction l1 with
  | nil => intro l2; simp
  | cons a t ih =>
      intro l2
      simp only [List.map_cons, List.sum_cons, ih l2]
      rw [← List.sum_map_add]

lemma inner_rank (n : ℚ) : ∀ (pos : List ℚ),
    (pos.map (fun p => if n < p then (1 : ℚ) else if n = p then 1/2 else 0)).sum =
      (cGT pos n : ℚ) + (cEq pos n : ℚ) / 2 := by
  intro pos
  induction pos with
  | nil => simp [cGT, cEq]
  | cons p t ih =>
      simp only [List.map_cons, List.sum_cons, ih, cGT, cEq, List.filter_cons]
      by_cases h1 : n < p
      · have hd1 : decide (n < p) = true := by simpa using h1
        have hd2 : decide (p = n) = false := by simpa using (ne_of_gt h1)
        rw [if_pos h1, hd1, hd2]
        simp only [if_true, Bool.false_eq_true, if_false, List.length_cons]
        push_cast
        ring
      · have hd1 : decide (n < p) = false := by simpa using h1
        rw [if_neg h1, hd1]
        simp only [Bool.false_eq_true, if_false]
        by_cases h2 : n = p
        · have hd2 : decide (p = n) = true := by simpa using h2.symm
          rw [if_pos h2, hd2]
          simp only [if_true, List.length_cons]
          push_cast
          ring
        · have hd2 : decide (p = n) = false := by
            simpa using (fun hpn : p = n => h2 hpn.symm)
          rw [if_neg h2, hd2]
          simp only [Bool.false_eq_true, if_false]
          ring

lemma trapArea_scale (N P : ℚ) : ∀ (pts : List (ℚ × ℚ)),
    trapArea (pts.map (fun q => (q.1 / N, q.2 / P))) = trapArea pts / (N * P) := by
  intro pts
  induction pts with
  | nil => simp [trapArea]
  | cons a rest ih =>
      cases rest with
      | nil => simp [trapArea]
      | cons b rest' =>
          obtain ⟨x1, y1⟩ := a
          obtain ⟨x2, y2⟩ := b
          simp only [List.map_cons] at ih ⊢
          rw [trapArea, trapArea]
          rw [ih]
          rw [add_div]
          congr 1
          field_simp
          ring

lemma trap_chain (pos neg : List ℚ) :
    ∀ (V : List ℚ), V.Pairwise (· > ·) →
      ∀ (u : ℚ), (∀ v ∈ V, v < u) →
      (∀ x ∈ pos ++ neg, u ≤ x ∨ x ∈ V) →
      trapArea ((((cGE neg u : ℚ), (cGE pos u : ℚ)) :: V.map
          (fun v => ((cGE neg v : ℚ), (cGE pos v : ℚ))))) =
        ((neg.filter (fun n => n < u)).map
          (fun n => (cGT pos n : ℚ) + (cEq pos n : ℚ) / 2)).sum := by
  intro V
  induction V with
  | nil =>
      intro _ u _ hcov
      have hfil : neg.filter (fun n => decide (n < u)) = [] := by
        rw [List.filter_eq_nil_iff]
        intro n hn
        rcases hcov n (List.mem_append.mpr (Or.inr hn)) with h | h
        · simpa using not_lt_of_le h
        · cases h
      simp only [List.map_nil]
      rw [hfil]
      simp [trapArea]
  | cons v rest ih =>
      intro hpair u hu hcov
      obtain ⟨hvrest, hrest⟩ := List.pairwise_cons.mp hpair
      have hvu : v < u := hu v (List.mem_cons_self v rest)
      have hcov' : ∀ x ∈ pos ++ neg, v ≤ x ∨ x ∈ rest := by
        intro x hx
        rcases hcov x hx with h | h
        · exact Or.inl (le_trans (le_of_lt hvu) h)
        · rcases List.mem_cons.mp h with h | h
          · exact Or.inl (le_of_eq h.symm)
          · exact Or.inr h
      have IH := ih hrest v hvrest hcov'
      have hnegcov : ∀ x ∈ neg, u ≤ x ∨ x = v ∨ x < v := by
        intro x hx
        rcases hcov x (List.mem_append.mpr (Or.inr hx)) with h | h
        · exact Or.inl h
        · rcases List.mem_cons.mp h with h | h
          · exact Or.inr (Or.inl h)
          · exact Or.inr (Or.inr (hvrest x h))
      have hposcov : ∀ x ∈ pos, u ≤ x ∨ x = v ∨ x < v := by
        intro x hx
        rcases hcov x (List.mem_append.mpr (Or.inl hx)) with h | h
        · exact Or.inl h
        · rcases List.mem_cons.mp h with h | h
          · exact Or.inr (Or.inl h)
          · exact Or.inr (Or.inr (hvrest x h))
      have hC1 : cGE neg v = cGE neg u + cEq neg v := by
        rw [cGE, cGE, cEq]
        apply length_filter_split
        · intro x hx
          rw [← Bool.decide_or, decide_eq_decide]
          constructor
          · intro hvx
            rcases hnegcov x hx with h | h | h
            · exact Or.inl h
            · exact Or.inr h
            · exact absurd hvx (not_le.mpr h)
          · rintro (h | h)
            · exact le_trans (le_of_lt hvu) h
            · exact le_of_eq h.symm
        · intro x _
          rintro ⟨h1, h2⟩
          rw [decide_eq_true_eq] at h1 h2
          rw [h2] at h1
          exact absurd h1 (not_le_of_lt hvu)
      have hC2 : cGE pos u = cGT pos v := by
        rw [cGE, cGT]
        apply congrArg List.length
        apply List.filter_congr
        intro x hx
        rw [decide_eq_decide]
        constructor
        · intro h
          exact lt_of_lt_of_le hvu h
        · intro h
          rcases hposcov x hx with h' | h' | h'
          · exact h'
          · rw [h'] at h
            exact absurd h (lt_irrefl v)
          · exact absurd (lt_trans h h') (lt_irrefl v)
      have hC3 : cGE pos v = cGT pos v + cEq pos v := by
        rw [cGE, cGT, cEq]
        apply length_filter_split
        · intro x _
          rw [← Bool.decide_or, decide_eq_decide]
          constructor
          · intro h
            exact (lt_or_eq_of_le h).imp id (fun e => e.symm)
          · rintro (h | h)
            · exact le_of_lt h
            · exact le_of_eq h.symm
        · intro x _
          rintro ⟨h1, h2⟩
          rw [decide_eq_true_eq] at h1 h2
          rw [h2] at h1
          exact absurd h1 (lt_irrefl v)
      have hS : ((neg.filter (fun n => n < u)).map
            (fun n => (cGT pos n : ℚ) + (cEq pos n : ℚ) / 2)).sum =
          ((neg.filter (fun n => n = v)).map
            (fun n => (cGT pos n : ℚ) + (cEq pos n : ℚ) / 2)).sum +
          ((neg.filter (fun n => n < v)).map
            (fun n => (cGT pos n : ℚ) + (cEq pos n : ℚ) / 2)).sum := by
        apply sum_filter_split
        · intro x hx
          rw [← Bool.decide_or, decide_eq_decide]
          constructor
          · intro hxu
            rcases hnegcov x hx with h | h | h
            · exact absurd hxu (not_lt.mpr h)
            · exact Or.inl h
            · exact Or.inr h
          · rintro (h | h)
            · rw [h]; exact hvu
            · exact lt_trans h hvu
        · intro x _
          rintro ⟨h1, h2⟩
          rw [decide_eq_true_eq] at h1 h2
          rw [h1] at h2
          exact absurd h2 (lt_irrefl v)
      have hSc := sum_filter_eq_const neg v (fun n => (cGT pos n : ℚ) + (cEq pos n : ℚ) / 2)
      simp only [List.map_cons]
      rw [trapArea, IH, hS, hSc, hC1, hC2, hC3]
      push_cast
      ring

lemma thresholds_pairwise (scores : List ℚ) : (thresholds scores).Pairwise (· > ·) := by
  have hsorted : List.Sorted (· ≥ ·) (thresholds scores) :=
    List.sorted_insertionSort _ _
  have hnodup : (thresholds scores).Nodup :=
    ((List.perm_insertionSort _ _).nodup_iff).mpr (List.nodup_dedup scores)
  exact (hsorted.and hnodup).imp (fun h => lt_of_le_of_ne h.1 (fun he => h.2 he.symm))

lemma mem_thresholds {scores : List ℚ} {x : ℚ} : x ∈ thresholds scores ↔ x ∈ scores := by
  rw [thresholds, List.mem_insertionSort, List.mem_dedup]

/-- C6: for every binary-label split with at least one positive and one
negative sample, the AUC produced by the binary ROC path — trapezoidal
integration (`metrics.auc`) of the `roc_curve` points computed from the
ground truth against the positive-class score column — equals the AUC
given by the standard rank-sum (Mann–Whitney) formula over all
(score, label) pairs: each (positive, negative) pair contributes 1 when
the positive scores higher, 1/2 on a tie, normalised by the number of
pairs. -/
theorem binary_auc_eq_rank_sum (pos neg : List ℚ) (hpos : pos ≠ []) (hneg : neg ≠ []) :
    binary_auc pos neg = rank_sum_auc pos neg := by
  set u : ℚ := (pos ++ neg).foldr max 0 + 1 with hu
  have hbig : ∀ x ∈ pos ++ neg, x < u := by
    intro x hx
    exact lt_of_le_of_lt (le_foldr_max (pos ++ neg) 0 x hx) (lt_add_one _)
  have hVpair := thresholds_pairwise (pos ++ neg)
  have hVu : ∀ v ∈ thresholds (pos ++ neg), v < u :=
    fun v hv => hbig v (mem_thresholds.mp hv)
  have hVcov : ∀ x ∈ pos ++ neg, u ≤ x ∨ x ∈ thresholds (pos ++ neg) :=
    fun x hx => Or.inr (mem_thresholds.mpr hx)
  have hneg0 : cGE neg u = 0 := by
    rw [cGE]
    rw [List.length_eq_zero]
    rw [List.filter_eq_nil_iff]
    intro n hn
    simpa using not_le_of_lt (hbig n (List.mem_append.mpr (Or.inr hn)))
  have hpos0 : cGE pos u = 0 := by
    rw [cGE]
    rw [List.length_eq_zero]
    rw [List.filter_eq_nil_iff]
    intro p hp
    simpa using not_le_of_lt (hbig p (List.mem_append.mpr (Or.inl hp)))
  have hlist : roc_points pos neg =
      ((((cGE neg u : ℚ), (cGE pos u : ℚ)) :: (thresholds (pos ++ neg)).map
          (fun v => ((cGE neg v : ℚ), (cGE pos v : ℚ)))).map
        (fun q => (q.1 / (neg.length : ℚ), q.2 / (pos.length : ℚ)))) := by
    rw [roc_points, List.map_cons, List.map_map]
    congr 1
    rw [hneg0, hpos0]
    norm_num
  have hchain := trap_chain pos neg (thresholds (pos ++ neg)) hVpair u hVu hVcov
  have hfull : neg.filter (fun n => decide (n < u)) = neg := by
    rw [List.filter_eq_self]
    intro n hn
    simpa using hbig n (List.mem_append.mpr (Or.inr hn))
  rw [binary_auc, hlist, trapArea_scale, hchain, hfull]
  rw [rank_sum_auc, sum_sum_comm]
  have hmapeq : neg.map (fun b => (pos.map
      (fun a => if b < a then (1 : ℚ) else if b = a then 1/2 else 0)).sum) =
      neg.map (fun n => (cGT pos n : ℚ) + (cEq pos n : ℚ) / 2) := by
    apply List.map_congr_left
    intro n _
    exact inner_rank n pos
  rw [hmapeq, mul_comm ((pos.length : ℚ)) ((neg.length : ℚ))]

/-- Closed witness for `binary_auc_eq_rank_sum`: positive scores
`[3, 1]`, negative scores `[2]` (one inversion, one clear win). -/
theorem binary_auc_eq_rank_sum_witness :
    binary_auc [3, 1] [2] = rank_sum_auc [3, 1] [2] :=
  binary_auc_eq_rank_sum [3, 1] [2] (by simp) (by simp)
